import Mathlib

/-!
# gowiki: a shallow embedding of `wiki.go`

Go `string` values are embedded as Lean `String` (sequences of Unicode code
points, i.e. Go strings holding valid UTF-8) and `[]byte` as `List UInt8`.
The parts of the Go standard library that `wiki.go` calls (`regexp`,
`path/filepath`, `strings`, `io/ioutil`, `net/http`, `html/template`) are
embedded by small models of their documented behaviour; everything else is a
line-by-line transcription of `wiki.go`.
-/

namespace GoWiki

/-! ## `strings` -/

namespace strings

/-- Go `strings.HasSuffix(s, suffix)`. -/
def HasSuffix (s suffix : String) : Bool :=
  suffix.data.isSuffixOf s.data

/-- Go `strings.TrimSuffix(s, suffix)`: `s` without the trailing `suffix` when
`s` ends in it, `s` unchanged otherwise. -/
def TrimSuffix (s suffix : String) : String :=
  if HasSuffix s suffix then ⟨s.data.take (s.data.length - suffix.data.length)⟩ else s

/-- Go `strings.Join(elems, sep)`. -/
def Join (elems : List String) (sep : String) : String :=
  sep.intercalate elems

end strings

/-! ## `regexp`: a backtracking matcher with leftmost-first semantics -/

namespace regexp

/-- Abstract syntax of the regular expressions used by the program. -/
inductive Regexp where
  /-- The empty expression. -/
  | empty : Regexp
  /-- One literal character. -/
  | lit (c : Char) : Regexp
  /-- Character class given by inclusive ranges, as in `[a-zA-Z0-9]`. -/
  | cls (ranges : List (Char × Char)) : Regexp
  /-- Concatenation `ab`. -/
  | seq (a b : Regexp) : Regexp
  /-- Alternation `a|b`, preferring `a`. -/
  | alt (a b : Regexp) : Regexp
  /-- Greedy repetition `a+`. -/
  | plus (a : Regexp) : Regexp
  /-- Numbered capturing group `(a)`. -/
  | group (i : Nat) (a : Regexp) : Regexp
  /-- Anchor `^` (beginning of text, no multi-line flag). -/
  | beginText : Regexp
  /-- Anchor `$` (end of text, no multi-line flag). -/
  | endText : Regexp

/-- The expression matching exactly the characters of `s` in sequence. -/
def Regexp.str : List Char → Regexp
  | [] => .empty
  | c :: cs => .seq (.lit c) (Regexp.str cs)

/-- Whether `c` lies in one of the inclusive ranges. -/
def inRanges (ranges : List (Char × Char)) (c : Char) : Bool :=
  ranges.any fun r => decide (r.1 ≤ c) && decide (c ≤ r.2)

/-- A position of the matcher in the input text: the offset reached, the text
still to read, and the capture groups closed so far (index, start, end). -/
structure MState where
  pos : Nat
  rest : List Char
  caps : List (Nat × Nat × Nat)

/-- Continuations of the matcher: what remains to be matched after the
current sub-expression. -/
abbrev Cont := MState → Option MState

/-- Iteration of `a+`: one mandatory round of `step`, then greedily further
rounds (as long as the previous round consumed input), then the continuation.
`fuel` bounds the number of further rounds; the length of the remaining text
is always enough. -/
def plusLoop (step : MState → Cont → Option MState) (k : Cont) : Nat → MState → Option MState
  | 0, s => step s k
  | fuel + 1, s =>
    step s fun s1 =>
      if s1.rest.length < s.rest.length then
        (plusLoop step k fuel s1).orElse fun _ => k s1
      else k s1

/-- Backtracking match of `re` from state `s` followed by continuation `k`;
alternatives are tried left to right and repetition is greedy, which is the
match Go's `regexp` reports (leftmost-first). -/
def run : Regexp → MState → Cont → Option MState
  | .empty, s, k => k s
  | .lit c, s, k =>
    match s.rest with
    | [] => none
    | d :: ds => if d = c then k { s with pos := s.pos + 1, rest := ds } else none
  | .cls ranges, s, k =>
    match s.rest with
    | [] => none
    | d :: ds => if inRanges ranges d then k { s with pos := s.pos + 1, rest := ds } else none
  | .seq a b, s, k => run a s fun s1 => run b s1 k
  | .alt a b, s, k => (run a s k).orElse fun _ => run b s k
  | .plus a, s, k => plusLoop (run a) k s.rest.length s
  | .group i a, s, k => run a s fun s1 => k { s1 with caps := (i, s.pos, s1.pos) :: s1.caps }
  | .beginText, s, k => if s.pos = 0 then k s else none
  | .endText, s, k => if s.rest = [] then k s else none

/-- Number of capturing groups of an expression (Go `NumSubexp`). -/
def Regexp.numSubexp : Regexp → Nat
  | .seq a b => max a.numSubexp b.numSubexp
  | .alt a b => max a.numSubexp b.numSubexp
  | .plus a => a.numSubexp
  | .group i a => max i a.numSubexp
  | _ => 0

/-- Match of `re` starting exactly at offset `start` of `text`: the end
offset and the captures of the first match found by backtracking. -/
def matchAt (re : Regexp) (text : List Char) (start : Nat) : Option MState :=
  run re { pos := start, rest := text.drop start, caps := [] } some

/-- Leftmost match: try the start offsets `start`, `start + 1`, ... in turn
(`n + 1` of them). -/
def search (re : Regexp) (text : List Char) : Nat → Nat → Option (Nat × MState)
  | 0, start => (matchAt re text start).map fun s => (start, s)
  | n + 1, start =>
    match matchAt re text start with
    | some s => some (start, s)
    | none => search re text n (start + 1)

/-- Text between two offsets. -/
def slice (text : List Char) (lo hi : Nat) : String :=
  ⟨(text.drop lo).take (hi - lo)⟩

/-- Text of capture group `i` in a finished match; the empty string when the
group did not take part in the match. -/
def submatch (text : List Char) (caps : List (Nat × Nat × Nat)) (i : Nat) : String :=
  match caps.find? fun c => c.1 == i with
  | some (_, lo, hi) => slice text lo hi
  | none => ""

/-- Go `(*Regexp).FindStringSubmatch(s)`: `none` (Go `nil`) when `s` has no
match; otherwise the text of the leftmost match followed by the text of each
capture group. -/
def FindStringSubmatch (re : Regexp) (s : String) : Option (List String) :=
  (search re s.data s.data.length 0).map fun m =>
    slice s.data m.1 m.2.pos ::
      (List.range re.numSubexp).map fun i => submatch s.data m.2.caps (i + 1)

end regexp

/-! ## `path/filepath` (Unix) -/

namespace filepath

/-- Split the text at every `/`; the pieces between separators, in order. -/
def splitSlash : List Char → List (List Char)
  | [] => [[]]
  | c :: cs =>
    if c = '/' then [] :: splitSlash cs
    else
      match splitSlash cs with
      | [] => [[c]]
      | w :: ws => (c :: w) :: ws

/-- Lexical processing of the path elements by the rules of `Clean`; `acc`
holds the elements kept so far, most recent first.
Empty elements (repeated separators) and `.` are dropped; `..` removes the
preceding element when that one is not itself `..`, is dropped at the root of
a rooted path, and is kept otherwise. -/
def cleanElems (rooted : Bool) : List (List Char) → List (List Char) → List (List Char)
  | [], acc => acc.reverse
  | e :: es, acc =>
    if e = [] ∨ e = ['.'] then cleanElems rooted es acc
    else if e = ['.', '.'] then
      match acc with
      | [] => if rooted then cleanElems rooted es [] else cleanElems rooted es [e]
      | a :: as =>
        if a = ['.', '.'] then cleanElems rooted es (e :: a :: as)
        else cleanElems rooted es as
    else cleanElems rooted es (e :: acc)

/-- Go `filepath.Clean(path)`: the shortest path name equivalent to `path` by
purely lexical processing; `"."` when the result would be empty. -/
def Clean (path : String) : String :=
  let rooted := path.data.head? = some '/'
  let elems := cleanElems rooted (splitSlash path.data) []
  let out := (if rooted then "/" else "") ++ "/".intercalate (elems.map String.mk)
  if out = "" then "." else out

/-- Go `filepath.Join(elem...)`: the elements from the first non-empty one on,
joined by the separator, then cleaned; `""` when every element is empty. -/
def Join : List String → String
  | [] => ""
  | e :: es => if e ≠ "" then Clean (strings.Join (e :: es) "/") else Join es

end filepath

/-! ## Files -/

/-- Go `[]byte`. -/
abbrev Bytes := List UInt8

/-- Go `[]byte(s)`: the UTF-8 encoding of `s`. -/
def bytesOf (s : String) : Bytes :=
  s.toUTF8.data.toList

/-- A failing `WriteFile`: the error reported, and what is left at the path
afterwards (`none`: the path is as it was before the call). -/
structure WriteFault where
  msg : String
  left : Option (Except String Bytes)

/-- State of the file system, as a map from path to content: `read path` is
what reading the file at `path` yields, its bytes or the error (a missing
file, or any other read error). `writeFault path` tells whether writing to
`path` fails. -/
structure FileSystem where
  read : String → Except String Bytes
  writeFault : String → Option WriteFault

namespace ioutil

/-- Go `ioutil.ReadFile(filename)`. -/
def ReadFile (fs : FileSystem) (filename : String) : Except String Bytes :=
  fs.read filename

/-- Go `ioutil.WriteFile(filename, data, perm)`: the error (`none` for Go
`nil`) and the file system afterwards. On success the file holds exactly
`data` (created or truncated), every other path is untouched. The permission
bits play no part in this model. -/
def WriteFile (fs : FileSystem) (filename : String) (data : Bytes) : Option String × FileSystem :=
  match fs.writeFault filename with
  | some fault =>
    (some fault.msg,
      match fault.left with
      | none => fs
      | some entry => { fs with read := fun p => if p = filename then entry else fs.read p })
  | none =>
    (none, { fs with read := fun p => if p = filename then .ok data else fs.read p })

end ioutil

/-! ## `net/http` and `html/template`: what a handler does to its response -/

/-- Go `type Page struct`. -/
structure Page where
  Title : String
  Body : Bytes
deriving DecidableEq, Repr

/-- The `data interface{}` values handed to the templates by this program. -/
inductive TemplateData where
  /-- A `*Page`. -/
  | page (p : Page) : TemplateData
  /-- A `[]string`. -/
  | names (l : List String) : TemplateData
deriving DecidableEq, Repr

/-- One effect of a handler on its `http.ResponseWriter`. -/
inductive Action where
  /-- Call `http.NotFound(w, r)`: a 404 reply. -/
  | notFound : Action
  /-- The reply of `http.Redirect`: status `code` with the header
  `Location: location`. -/
  | redirect (location : String) (code : Int) : Action
  /-- Call `http.Error(w, msg, code)`. -/
  | error (msg : String) (code : Int) : Action
  /-- The handler panics with this message; nothing is sent. -/
  | panic (msg : String) : Action
  /-- Call `templates.ExecuteTemplate(w, name, data)`. -/
  | executeTemplate (name : String) (data : TemplateData) : Action
deriving DecidableEq, Repr

/-- Everything a handler did to its response writer, in order; `[]` when the
handler returned without touching it. -/
abbrev Response := List Action

/-- The parts of `*http.Request` the program reads. -/
structure Request where
  /-- Field `r.Method`. -/
  Method : String
  /-- Field `r.URL.Path`. -/
  Path : String
  /-- Method `r.FormValue(key)`. -/
  FormValue : String → String

/-- The parsed template set: `execute name data` is the error returned by
`ExecuteTemplate(w, name, data)`, `none` for Go `nil`. -/
structure Templates where
  execute : String → TemplateData → Option String

/-- Handlers with the signature `func(http.ResponseWriter, *http.Request, string)`:
from the request, the title and the file system to the response and the file
system afterwards. -/
abbrev TitleHandler := Request → String → FileSystem → Response × FileSystem

/-- Go `http.HandlerFunc`. -/
abbrev HandlerFunc := Request → FileSystem → Response × FileSystem

/-- Go `http.StatusInternalServerError`. -/
def StatusInternalServerError : Int := 500

/-- Go `http.StatusFound`. -/
def StatusFound : Int := 302

/-- Go `http.MethodPost`. -/
def MethodPost : String := "POST"

/-! ## `path`, `net/url` (imported as `urlpkg` by `net/http`) and `http.Redirect` -/

namespace path

/-- Go `path.Clean(path)`: the lexical rules of `filepath.Clean` on Unix. -/
def Clean (p : String) : String :=
  filepath.Clean p

/-- Go `path.Split(path)`: the text up to and including the final `/`, and the
text after it. -/
def splitChars : List Char → List Char × List Char
  | [] => ([], [])
  | c :: cs =>
    let rec1 := splitChars cs
    if rec1.1 = [] then
      if c = '/' then ([c], cs) else ([], c :: cs)
    else (c :: rec1.1, rec1.2)

/-- Go `path.Split(path)` on strings. -/
def Split (p : String) : String × String :=
  (⟨(splitChars p.data).1⟩, ⟨(splitChars p.data).2⟩)

end path

namespace urlpkg

/-- Go `ishex`. -/
def ishex (c : Char) : Bool :=
  decide (('0' ≤ c ∧ c ≤ '9') ∨ ('a' ≤ c ∧ c ≤ 'f') ∨ ('A' ≤ c ∧ c ≤ 'F'))

/-- The scan of `unescape` for well-formed escapes; `pending` is the number
of hexadecimal digits still owed to the last `%`. -/
def validEscapesFrom : Nat → List Char → Bool
  | pending, [] => decide (pending = 0)
  | 0, c :: cs => if c = '%' then validEscapesFrom 2 cs else validEscapesFrom 0 cs
  | pending + 1, c :: cs => ishex c && validEscapesFrom pending cs

/-- Whether `unescape` accepts the text as a path, a fragment or user
information: every `%` is followed by two hexadecimal digits. -/
def validEscapes (s : List Char) : Bool :=
  validEscapesFrom 0 s

/-- Go `stringContainsCTLByte`: a byte below 0x20 or the byte 0x7f. -/
def containsCTL (s : List Char) : Bool :=
  s.any fun c => decide (c.toNat < 32) || decide (c.toNat = 127)

/-- Go `strings.Cut(s, sep)` for a one-character separator: the text before
the first `sep` and the text after it (empty when there is none). -/
def cut (sep : Char) (s : List Char) : List Char × List Char :=
  (s.takeWhile fun c => decide (c ≠ sep), (s.dropWhile fun c => decide (c ≠ sep)).drop 1)

/-- The loop of Go `getScheme` at index `i`, the characters from `i` on being
the last argument: `none` for the error "missing protocol scheme", otherwise
the scheme and the text after it. -/
def getSchemeLoop (rawURL : List Char) : Nat → List Char → Option (List Char × List Char)
  | _, [] => some ([], rawURL)
  | i, c :: cs =>
    if ('a' ≤ c ∧ c ≤ 'z') ∨ ('A' ≤ c ∧ c ≤ 'Z') then getSchemeLoop rawURL (i + 1) cs
    else if ('0' ≤ c ∧ c ≤ '9') ∨ c = '+' ∨ c = '-' ∨ c = '.' then
      if i = 0 then some ([], rawURL) else getSchemeLoop rawURL (i + 1) cs
    else if c = ':' then
      if i = 0 then none else some (rawURL.take i, cs)
    else some ([], rawURL)

/-- Go `getScheme(rawURL)`. -/
def getScheme (rawURL : List Char) : Option (List Char × List Char) :=
  getSchemeLoop rawURL 0 rawURL

/-- Go `validUserinfo(s)`. -/
def validUserinfo (s : List Char) : Bool :=
  s.all fun c =>
    decide (('A' ≤ c ∧ c ≤ 'Z') ∨ ('a' ≤ c ∧ c ≤ 'z') ∨ ('0' ≤ c ∧ c ≤ '9')) ||
      "-._:~!$&()*+,;=%@".data.contains c || decide (c = Char.ofNat 39)

/-- The text after the last `@`, and the text before it when there is one
(Go `strings.LastIndex(authority, "@")`). -/
def splitLastAt : List Char → Option (List Char) × List Char
  | [] => (none, [])
  | c :: cs =>
    match splitLastAt cs with
    | (some user, host) => (some (c :: user), host)
    | (none, host) => if c = '@' then (some [], host) else (none, c :: host)

/-- Whether Go `parseAuthority(authority)` succeeds with an empty host.
`parseHost` yields the empty host, without error, for the empty text only; the
user information before the last `@` has to be valid and to unescape. -/
def authorityHasNoHost (authority : List Char) : Bool :=
  match splitLastAt authority with
  | (none, host) => decide (host = [])
  | (some userinfo, host) =>
    decide (host = []) && validUserinfo userinfo &&
      validEscapes (cut ':' userinfo).1 && validEscapes (cut ':' userinfo).2

/-- Whether Go `url.Parse(rawURL)` succeeds with an empty `Scheme` and an empty
`Host`: the test `err == nil` and `u.Scheme == "" && u.Host == ""` of
`http.Redirect`. Follows `Parse` and `parse(u, false)`: the fragment is cut
off and has to unescape; control bytes are an error; `*` is accepted; the
scheme has to be empty; the query is cut off; a rootless first segment with a
colon is an error; a text that begins with `//` but not `///` has an authority
up to the next `/`; the path has to unescape. -/
def parsesAsLocal (rawURL : String) : Bool :=
  let u := (cut '#' rawURL.data).1
  let frag := (cut '#' rawURL.data).2
  let fragOK := decide (frag = []) || validEscapes frag
  if containsCTL u then false
  else if u = ['*'] then fragOK
  else
    match getScheme u with
    | none => false
    | some (scheme, rest0) =>
      if scheme ≠ [] then false
      else
        let rest := (cut '?' rest0).1
        if rest.head? ≠ some '/' ∧ (cut '/' rest).1.contains ':' then false
        else if ['/', '/'].isPrefixOf rest ∧ ¬ ['/', '/', '/'].isPrefixOf rest then
          let authority := (rest.drop 2).takeWhile fun c => decide (c ≠ '/')
          let rest1 := (rest.drop 2).dropWhile fun c => decide (c ≠ '/')
          authorityHasNoHost authority && validEscapes rest1 && fragOK
        else validEscapes rest && fragOK

end urlpkg

namespace http

/-- Lower-case hexadecimal digit of a number below 16. -/
def hexDigit (n : Nat) : Char :=
  "0123456789abcdef".data.getD n '0'

/-- Go `hexEscapeNonASCII(s)`: every byte from 0x80 on is written `%xx`. -/
def hexEscapeNonASCII (s : String) : String :=
  ⟨s.data.flatMap fun c =>
    if c.toNat < 128 then [c]
    else (String.utf8EncodeChar c).flatMap fun b =>
      ['%', hexDigit (b.toNat / 16), hexDigit (b.toNat % 16)]⟩

/-- The value of the `Location` header computed by Go `http.Redirect` for the
argument `url` on a request with path `oldpath`: a `url` without scheme and
host is made absolute against the directory of the request path when it does
not begin with `/`, cleaned up to its query (a trailing slash is kept), and
non-ASCII bytes are escaped. -/
def redirectLocation (requestPath url : String) : String :=
  let url5 :=
    if urlpkg.parsesAsLocal url then
      let oldpath := if requestPath = "" then "/" else requestPath
      let url1 := if url = "" ∨ url.data.head? ≠ some '/' then (path.Split oldpath).1 ++ url else url
      let url2 : String := ⟨url1.data.takeWhile fun c => decide (c ≠ '?')⟩
      let query : String := ⟨url1.data.dropWhile fun c => decide (c ≠ '?')⟩
      let trailing := strings.HasSuffix url2 "/"
      let url3 := path.Clean url2
      let url4 := if trailing && !strings.HasSuffix url3 "/" then url3 ++ "/" else url3
      url4 ++ query
    else url
  hexEscapeNonASCII url5

/-- Go `http.Redirect(w, r, url, code)`: the `Location` header is set and
`WriteHeader(code)` sends the reply, or panics for a code that has not three
digits. -/
def Redirect (r : Request) (url : String) (code : Int) : Response :=
  if code < 100 ∨ code > 999 then [.panic ("invalid WriteHeader code " ++ toString code)]
  else [.redirect (redirectLocation r.Path url) code]

end http

/-! ## `wiki.go` -/

/-- Go `var pageDir = "data/"`. -/
def pageDir : String := "data/"

/-- Go `func FilenameToPagename(filename string) string`. -/
def FilenameToPagename (filename : String) : String :=
  strings.TrimSuffix filename ".txt"

/-- The file name computed on the first line of both `(*Page).save` and
`loadPage`: `filepath.Join(pageDir, title + ".txt")`. -/
def pageFilename (title : String) : String :=
  filepath.Join [pageDir, title ++ ".txt"]

/-- Go `func (p *Page) save() error`. -/
def Page.save (p : Page) (fs : FileSystem) : Option String × FileSystem :=
  let filename := filepath.Join [pageDir, p.Title ++ ".txt"]
  ioutil.WriteFile fs filename p.Body

/-- Go `func loadPage(title string) (*Page, error)`. -/
def loadPage (fs : FileSystem) (title : String) : Except String Page :=
  let filename := filepath.Join [pageDir, title ++ ".txt"]
  match ioutil.ReadFile fs filename with
  | .error err => .error err
  | .ok body => .ok { Title := title, Body := body }

/-- Go `func renderTemplate(w http.ResponseWriter, tmpl string, data interface{})`. -/
def renderTemplate (templates : Templates) (tmpl : String) (data : TemplateData) : Response :=
  match templates.execute (tmpl ++ ".gohtml") data with
  | some err => [.executeTemplate (tmpl ++ ".gohtml") data, .error err StatusInternalServerError]
  | none => [.executeTemplate (tmpl ++ ".gohtml") data]

/-- Go `func viewHandler(w http.ResponseWriter, r *http.Request, title string)`. -/
def viewHandler (templates : Templates) : TitleHandler := fun r title fs =>
  match loadPage fs title with
  | .error _ => (http.Redirect r ("/edit/" ++ title) StatusFound, fs)
  | .ok p => (renderTemplate templates "view" (.page p), fs)

/-- Go `func editHandler(w http.ResponseWriter, r *http.Request, title string)`. -/
def editHandler (templates : Templates) : TitleHandler := fun _r title fs =>
  let p :=
    match loadPage fs title with
    | .error _ => { Title := title, Body := [] }
    | .ok p => p
  (renderTemplate templates "edit" (.page p), fs)

/-- Go `func saveHandler(w http.ResponseWriter, r *http.Request, title string)`. -/
def saveHandler : TitleHandler := fun r title fs =>
  if r.Method = MethodPost then
    let body := r.FormValue "body"
    let p : Page := { Title := title, Body := bytesOf body }
    match p.save fs with
    | (some err, fs1) => ([.error err StatusInternalServerError], fs1)
    | (none, fs1) => (http.Redirect r ("/view/" ++ title) 302, fs1)
  else ([], fs)

/-- Go `func viewFrontPageHandler(w http.ResponseWriter, r *http.Request)`;
`readDir` is the outcome of its call `ioutil.ReadDir(pageDir)`: the error, or
the names of the directory entries in the order returned. -/
def viewFrontPageHandler (templates : Templates) (readDir : Except String (List String)) :
    Response :=
  match readDir with
  | .error err => [.error err StatusInternalServerError]
  | .ok files =>
    let pages := files.map FilenameToPagename
    renderTemplate templates "view_frontpage" (.names pages)

/-- Go `var validPath = regexp.MustCompile("^/(edit|save|view)/([a-zA-Z0-9]+)$")`. -/
def validPath : regexp.Regexp :=
  .seq .beginText <| .seq (.lit '/') <|
    .seq (.group 1 (.alt (.str "edit".data) (.alt (.str "save".data) (.str "view".data)))) <|
    .seq (.lit '/') <|
    .seq (.group 2 (.plus (.cls [('a', 'z'), ('A', 'Z'), ('0', '9')]))) .endText

/-- Go `func makeHandler(fn func(http.ResponseWriter, *http.Request, string)) http.HandlerFunc`. -/
def makeHandler (fn : TitleHandler) : HandlerFunc := fun r fs =>
  match regexp.FindStringSubmatch validPath r.Path with
  | none => ([.notFound], fs)
  | some m =>
    if m[2]! = "FrontPage" then ([.notFound], fs)
    else fn r m[2]! fs

/-- ASCII letters and digits: the characters of the class `[a-zA-Z0-9]`. -/
def IsAlnum (c : Char) : Prop :=
  ('a' ≤ c ∧ c ≤ 'z') ∨ ('A' ≤ c ∧ c ≤ 'Z') ∨ ('0' ≤ c ∧ c ≤ '9')

instance : DecidablePred IsAlnum := fun c => by
  unfold IsAlnum
  infer_instance

/-- Strings matching `[a-zA-Z0-9]+`: non-empty, made of ASCII letters and
digits only. -/
def IsTitle (t : String) : Prop :=
  t ≠ "" ∧ ∀ c ∈ t.data, IsAlnum c

instance : DecidablePred IsTitle := fun t => by
  unfold IsTitle
  infer_instance

/-- The three operation names of the route pattern. -/
def operations : List String := ["edit", "save", "view"]

/-- A file system without any file, on which every write succeeds. -/
def emptyFS : FileSystem where
  read := fun p => .error ("open " ++ p ++ ": no such file or directory")
  writeFault := fun _ => none

/-- A template set whose templates always execute without error. -/
def okTemplates : Templates where
  execute := fun _ _ => none

/-- A request with the given method and path and a single form field `body`. -/
def mkRequest (method path body : String) : Request where
  Method := method
  Path := path
  FormValue := fun key => if key = "body" then body else ""

/-! ## Auxiliary definitions for the analysis of `validPath` and of routes -/

namespace regexp

/-- The state reached from `s` after reading `n` characters. -/
def MState.advance (s : MState) (n : Nat) : MState :=
  { s with pos := s.pos + n, rest := s.rest.drop n }

/-- The expression `/([a-zA-Z0-9]+)$` that follows group 1 in `validPath`. -/
def titlePart : Regexp :=
  .seq (.lit '/') <| .seq (.group 2 (.plus (.cls [('a', 'z'), ('A', 'Z'), ('0', '9')]))) .endText

/-- The state in which a match of `validPath` ends: group 1 spans the
operation that starts at offset `pos`, group 2 the title after it. -/
def finalState (pos opLen titleLen : Nat) : MState :=
  { pos := pos + opLen + 1 + titleLen, rest := [],
    caps := [(2, pos + opLen + 1, pos + opLen + 1 + titleLen), (1, pos, pos + opLen)] }

/-- The continuation of group 1 in `validPath`: close the group opened at
`pos`, then match `titlePart`. -/
def afterOperation (pos : Nat) : Cont :=
  fun s2 => run titlePart { s2 with caps := (1, pos, s2.pos) :: s2.caps } some

/-- The operation names as character lists. -/
def operationChars : List (List Char) := operations.map String.data

end regexp

namespace urlpkg

end urlpkg

/-! ## Lemmas on the path of a page -/

namespace filepath

theorem splitSlash_append_slash (w rest : List Char) (hw : '/' ∉ w) :
    splitSlash (w ++ '/' :: rest) = w :: splitSlash rest := by
  induction w with
  | nil => simp [splitSlash]
  | cons c cs ih =>
    have hc : c ≠ '/' := fun h => hw (by simp [h])
    have hcs : '/' ∉ cs := fun h => hw (by simp [h])
    simp [splitSlash, hc, ih hcs]

theorem splitSlash_of_not_mem (w : List Char) (hw : '/' ∉ w) : splitSlash w = [w] := by
  induction w with
  | nil => simp [splitSlash]
  | cons c cs ih =>
    have hc : c ≠ '/' := fun h => hw (by simp [h])
    have hcs : '/' ∉ cs := fun h => hw (by simp [h])
    simp [splitSlash, hc, ih hcs]

end filepath

theorem pageFilename_of_no_slash (t : String) (ht : '/' ∉ t.data) :
    pageFilename t = "data/" ++ t ++ ".txt" := by
  have hw : '/' ∉ t.data ++ ['.', 't', 'x', 't'] := by
    simp [ht]
  have hsplit : filepath.splitSlash ("data/".data ++ '/' :: (t.data ++ ['.', 't', 'x', 't']))
      = ['d','a','t','a'] :: [] :: [t.data ++ ['.', 't', 'x', 't']] := by
    have h1 := filepath.splitSlash_append_slash ['d','a','t','a']
      ('/' :: (t.data ++ ['.', 't', 'x', 't'])) (by decide)
    have h2 := filepath.splitSlash_append_slash [] (t.data ++ ['.', 't', 'x', 't']) (by simp)
    simp only [List.nil_append] at h2
    have h3 := filepath.splitSlash_of_not_mem _ hw
    show filepath.splitSlash (['d','a','t','a'] ++ '/' :: '/' :: (t.data ++ ['.', 't', 'x', 't'])) = _
    rw [h1, h2, h3]
  have hpath : (strings.Join [pageDir, t ++ ".txt"] "/").data
      = "data/".data ++ '/' :: (t.data ++ ['.', 't', 'x', 't']) := by
    simp [strings.Join, String.intercalate, String.intercalate.go, pageDir]
  have hne1 : t.data ++ ['.', 't', 'x', 't'] ≠ [] := by simp
  have hne2 : t.data ++ ['.', 't', 'x', 't'] ≠ ['.'] := by
    intro h
    have := congrArg List.length h
    simp at this
  have hne3 : t.data ++ ['.', 't', 'x', 't'] ≠ ['.', '.'] := by
    intro h
    have := congrArg List.length h
    simp at this
  have hdir : pageDir ≠ "" := by decide
  unfold pageFilename filepath.Join
  rw [if_pos hdir]
  unfold filepath.Clean
  simp only [hpath, hsplit]
  have hclean : filepath.cleanElems false
      [['d', 'a', 't', 'a'], [], t.data ++ ['.', 't', 'x', 't']] []
      = [['d', 'a', 't', 'a'], t.data ++ ['.', 't', 'x', 't']] := by
    simp [filepath.cleanElems, hne2, hne3]
  simp [hclean, String.intercalate, String.intercalate.go, String.ext_iff]

/-! ## Lemmas on matching `validPath` -/

namespace regexp

theorem inRanges_alnum (c : Char) :
    inRanges [('a', 'z'), ('A', 'Z'), ('0', '9')] c = true ↔ IsAlnum c := by
  simp [inRanges, IsAlnum]

theorem run_str (l : List Char) (s : MState) (k : Cont) :
    run (Regexp.str l) s k = if l.isPrefixOf s.rest then k (s.advance l.length) else none := by
  induction l generalizing s with
  | nil =>
    cases s
    simp [Regexp.str, run, MState.advance]
  | cons c cs ih =>
    obtain ⟨pos, rest, caps⟩ := s
    cases rest with
    | nil => simp [Regexp.str, run]
    | cons d ds =>
      by_cases h : d = c
      · subst h
        simp [Regexp.str, run, ih, MState.advance, Nat.add_assoc, Nat.add_comm 1]
      · simp [Regexp.str, run, h, Ne.symm h]

theorem run_cls (ranges : List (Char × Char)) (s : MState) (k : Cont) :
    run (.cls ranges) s k =
      match s.rest with
      | [] => none
      | d :: ds => if inRanges ranges d then k { s with pos := s.pos + 1, rest := ds } else none := by
  simp [run]

theorem plusLoop_single (step : MState → Cont → Option MState) (p : Char → Bool)
    (hstep : ∀ s k, step s k =
      match s.rest with
      | [] => none
      | d :: ds => if p d then k { s with pos := s.pos + 1, rest := ds } else none)
    (k : Cont) (hk : ∀ s : MState, s.rest ≠ [] → k s = none) (fuel : Nat) (s : MState)
    (hfuel : s.rest.length ≤ fuel + 1) :
    plusLoop step k fuel s =
      if s.rest ≠ [] ∧ ∀ c ∈ s.rest, p c = true then k (s.advance s.rest.length) else none := by
  induction fuel generalizing s with
  | zero =>
    obtain ⟨pos, rest, caps⟩ := s
    match rest, hfuel with
    | [], _ => simp [plusLoop, hstep]
    | [d], _ =>
      by_cases hd : p d = true
      · simp [plusLoop, hstep, hd, MState.advance]
      · simp [plusLoop, hstep, hd]
  | succ n ih =>
    obtain ⟨pos, rest, caps⟩ := s
    cases rest with
    | nil => simp [plusLoop, hstep]
    | cons d ds =>
      by_cases hd : p d = true
      · have hlen : ds.length ≤ n + 1 := by simpa using hfuel
        have hrec := ih { pos := pos + 1, rest := ds, caps := caps } hlen
        rw [plusLoop, hstep]
        simp only [hd, if_true, List.length_cons, Nat.lt_succ_self, hrec]
        cases ds with
        | nil => simp [MState.advance, Option.orElse, hd]
        | cons e es =>
          have hknone := hk { pos := pos + 1, rest := e :: es, caps := caps } (by simp)
          rw [hknone]
          show ((if (e :: es) ≠ [] ∧ ∀ c ∈ e :: es, p c = true then k (MState.advance { pos := pos + 1, rest := e :: es, caps := caps } (e :: es).length) else none).orElse fun _ => none) = if (d :: e :: es) ≠ [] ∧ ∀ c ∈ d :: e :: es, p c = true then k (MState.advance { pos := pos, rest := d :: e :: es, caps := caps } (d :: e :: es).length) else none
          by_cases hall : ∀ c ∈ e :: es, p c = true
          · have hall2 : ∀ c ∈ d :: e :: es, p c = true := by
              intro c hc
              rcases List.mem_cons.1 hc with rfl | hc
              · exact hd
              · exact hall c hc
            rw [if_pos ⟨by simp, hall⟩, if_pos ⟨by simp, hall2⟩]
            simp only [MState.advance, List.length_cons, List.drop_succ_cons, List.drop_length]
            have hpos : pos + 1 + (es.length + 1) = pos + (es.length + 1 + 1) := by omega
            rw [hpos]
            cases k { pos := pos + (es.length + 1 + 1), rest := [], caps := caps } <;>
              simp [Option.orElse]
          · have hall2 : ¬ ∀ c ∈ d :: e :: es, p c = true := by
              intro h
              exact hall fun c hc => h c (List.mem_cons_of_mem _ hc)
            rw [if_neg (fun h => hall h.2), if_neg (fun h => hall2 h.2)]
            simp [Option.orElse]
      · simp [plusLoop, hstep, hd]

theorem orElse_eq_some {α : Type} (a : Option α) (f : Unit → Option α) (r : α)
    (h : a.orElse f = some r) : a = some r ∨ (a = none ∧ f () = some r) := by
  cases a with
  | none => exact Or.inr ⟨rfl, h⟩
  | some v => exact Or.inl h

theorem run_titlePart (s : MState) :
    run titlePart s some =
      match s.rest with
      | [] => none
      | d :: t =>
        if d = '/' ∧ t ≠ [] ∧ ∀ c ∈ t, IsAlnum c then
          some { pos := s.pos + 1 + t.length, rest := [],
                 caps := (2, s.pos + 1, s.pos + 1 + t.length) :: s.caps }
        else none := by
  obtain ⟨pos, rest, caps⟩ := s
  cases rest with
  | nil => simp [titlePart, run]
  | cons d t =>
    by_cases hd : d = '/'
    · subst hd
      have hloop := plusLoop_single (run (.cls [('a', 'z'), ('A', 'Z'), ('0', '9')]))
        (inRanges [('a', 'z'), ('A', 'Z'), ('0', '9')]) (run_cls _)
        (fun s1 => run .endText
          { s1 with caps := (2, pos + 1, s1.pos) :: s1.caps } some)
        (by intro s1 h1; simp [run, h1]) t.length
        { pos := pos + 1, rest := t, caps := caps } (by simp)
      simp only [titlePart, run, if_true]
      simp only [run] at hloop
      rw [hloop]
      simp [MState.advance, inRanges_alnum]
    · simp [titlePart, run, hd]

theorem run_operation_some (op : List Char) (pos : Nat) (t : List Char)
    (ht : t ≠ []) (hall : ∀ c ∈ t, IsAlnum c) :
    run (Regexp.str op) { pos := pos, rest := op ++ '/' :: t, caps := [] } (afterOperation pos) =
      some (finalState pos op.length t.length) := by
  have hp : op.isPrefixOf (op ++ '/' :: t) = true := List.isPrefixOf_iff_prefix.2 ⟨_, rfl⟩
  rw [run_str, afterOperation, run_titlePart]
  simp only [hp, if_true, MState.advance, List.drop_left]
  rw [if_pos ⟨trivial, ht, hall⟩]
  rfl

theorem run_operation_inv (op : List Char) (pos : Nat) (rest : List Char) (r : MState)
    (h : run (Regexp.str op) { pos := pos, rest := rest, caps := [] } (afterOperation pos) =
      some r) :
    ∃ t, rest = op ++ '/' :: t ∧ t ≠ [] ∧ ∀ c ∈ t, IsAlnum c := by
  rw [run_str, afterOperation, run_titlePart] at h
  by_cases hp : op.isPrefixOf rest = true
  · obtain ⟨u, rfl⟩ := List.isPrefixOf_iff_prefix.1 hp
    simp only [hp, if_true, MState.advance, List.drop_left] at h
    cases u with
    | nil => simp at h
    | cons d t =>
      by_cases hd : d = '/' ∧ t ≠ [] ∧ ∀ c ∈ t, IsAlnum c
      · obtain ⟨rfl, ht, hall⟩ := hd
        exact ⟨t, rfl, ht, hall⟩
      · simp only [if_neg hd] at h
        cases h
  · simp [hp] at h

theorem matchAt_validPath_pos (text : List Char) (start : Nat) (h : start ≠ 0) :
    matchAt validPath text start = none := by
  simp [matchAt, validPath, run, h]

theorem matchAt_validPath_zero (d : Char) (ds : List Char) :
    matchAt validPath (d :: ds) 0 =
      if d = '/' then
        (run (Regexp.str "edit".data) { pos := 1, rest := ds, caps := [] } (afterOperation 1)).orElse
          fun _ =>
            (run (Regexp.str "save".data) { pos := 1, rest := ds, caps := [] }
              (afterOperation 1)).orElse
              fun _ =>
                run (Regexp.str "view".data) { pos := 1, rest := ds, caps := [] }
                  (afterOperation 1)
      else none := by
  rfl

theorem matchAt_validPath_nil : matchAt validPath [] 0 = none := by
  rfl

theorem matchAt_validPath_some (op t : List Char) (hop : op ∈ operationChars)
    (ht : t ≠ []) (hall : ∀ c ∈ t, IsAlnum c) :
    matchAt validPath ('/' :: (op ++ '/' :: t)) 0 = some (finalState 1 4 t.length) := by
  rw [matchAt_validPath_zero, if_pos rfl]
  simp only [operationChars, operations, List.map, List.mem_cons, List.mem_singleton,
    List.not_mem_nil, or_false] at hop
  rcases hop with rfl | rfl | rfl
  · rw [run_operation_some _ _ _ ht hall]
    rfl
  · have h1 : run (Regexp.str "edit".data)
        { pos := 1, rest := "save".data ++ '/' :: t, caps := [] } (afterOperation 1) = none := by
      rw [run_str]
      rfl
    rw [h1, run_operation_some _ _ _ ht hall]
    rfl
  · have h1 : run (Regexp.str "edit".data)
        { pos := 1, rest := "view".data ++ '/' :: t, caps := [] } (afterOperation 1) = none := by
      rw [run_str]
      rfl
    have h2 : run (Regexp.str "save".data)
        { pos := 1, rest := "view".data ++ '/' :: t, caps := [] } (afterOperation 1) = none := by
      rw [run_str]
      rfl
    rw [h1, h2, run_operation_some _ _ _ ht hall]
    rfl

theorem matchAt_validPath_inv (text : List Char) (r : MState)
    (h : matchAt validPath text 0 = some r) :
    ∃ op ∈ operationChars, ∃ t, t ≠ [] ∧ (∀ c ∈ t, IsAlnum c) ∧ text = '/' :: (op ++ '/' :: t) := by
  cases text with
  | nil => rw [matchAt_validPath_nil] at h; cases h
  | cons d ds =>
    rw [matchAt_validPath_zero] at h
    by_cases hd : d = '/'
    · subst hd
      rw [if_pos rfl] at h
      rcases orElse_eq_some _ _ _ h with h1 | ⟨-, h⟩
      · obtain ⟨t, rfl, ht, hall⟩ := run_operation_inv _ _ _ _ h1
        exact ⟨_, by simp [operationChars, operations], t, ht, hall, rfl⟩
      · rcases orElse_eq_some _ _ _ h with h2 | ⟨-, h3⟩
        · obtain ⟨t, rfl, ht, hall⟩ := run_operation_inv _ _ _ _ h2
          exact ⟨_, by simp [operationChars, operations], t, ht, hall, rfl⟩
        · obtain ⟨t, rfl, ht, hall⟩ := run_operation_inv _ _ _ _ h3
          exact ⟨_, by simp [operationChars, operations], t, ht, hall, rfl⟩
    · rw [if_neg hd] at h
      cases h

theorem search_validPath_pos (text : List Char) (n start : Nat) (h : start ≠ 0) :
    search validPath text n start = none := by
  induction n generalizing start with
  | zero => simp [search, matchAt_validPath_pos text start h]
  | succ n ih => simp [search, matchAt_validPath_pos text start h, ih (start + 1) (by omega)]

theorem search_validPath (text : List Char) (n : Nat) :
    search validPath text n 0 = (matchAt validPath text 0).map fun s => (0, s) := by
  cases n with
  | zero => rfl
  | succ n =>
    cases hm : matchAt validPath text 0 with
    | none => simp [search, hm, search_validPath_pos]
    | some s => simp [search, hm]

theorem numSubexp_validPath : validPath.numSubexp = 2 := by
  rfl

theorem FindStringSubmatch_validPath_some (op t : String) (hop : op ∈ operations)
    (ht : IsTitle t) :
    FindStringSubmatch validPath ("/" ++ op ++ "/" ++ t) = some ["/" ++ op ++ "/" ++ t, op, t] := by
  have hne : t.data ≠ [] := fun h => ht.1 (String.ext h)
  have hdata : ("/" ++ op ++ "/" ++ t).data = '/' :: (op.data ++ '/' :: t.data) := by
    simp
  have hopc : op.data ∈ operationChars := List.mem_map_of_mem _ hop
  have hlen : op.data.length = 4 := by
    simp only [operations, List.mem_cons, List.mem_singleton, List.not_mem_nil, or_false] at hop
    rcases hop with rfl | rfl | rfl <;> rfl
  unfold FindStringSubmatch
  rw [hdata, search_validPath, matchAt_validPath_some _ _ hopc hne ht.2, numSubexp_validPath]
  simp only [Option.map_some', finalState, slice, submatch]
  simp [List.range, List.range.loop, List.find?, String.ext_iff]
  have hlen2 : op.length = 4 := hlen
  refine ⟨by omega, ?_, ?_⟩
  · rw [← hlen, List.take_left]
  · have h5 : List.drop 5 (op.data ++ '/' :: t.data) = t.data := by
      have : (5 : Nat) = (op.data ++ ['/']).length := by simp [hlen]
      have happ : op.data ++ '/' :: t.data = (op.data ++ ['/']) ++ t.data := by simp
      rw [this, happ, List.drop_left]
    rw [h5]
    exact List.take_length t.data

theorem FindStringSubmatch_validPath_inv (p : String) (m : List String)
    (h : FindStringSubmatch validPath p = some m) :
    ∃ op ∈ operations, ∃ t, IsTitle t ∧ p = "/" ++ op ++ "/" ++ t ∧ m = [p, op, t] := by
  have hs : ∃ r, matchAt validPath p.data 0 = some r := by
    unfold FindStringSubmatch at h
    rw [search_validPath] at h
    cases hm : matchAt validPath p.data 0 with
    | none => simp [hm] at h
    | some r => exact ⟨r, rfl⟩
  obtain ⟨r, hr⟩ := hs
  obtain ⟨opc, hopc, tc, htc, hall, htext⟩ := matchAt_validPath_inv _ _ hr
  obtain ⟨op, hop, rfl⟩ := List.mem_map.1 hopc
  have ht : IsTitle ⟨tc⟩ := ⟨fun h => htc (congrArg String.data h), hall⟩
  have hp : p = "/" ++ op ++ "/" ++ ⟨tc⟩ := by
    apply String.ext
    simp [htext]
  refine ⟨op, hop, ⟨tc⟩, ht, hp, ?_⟩
  have := FindStringSubmatch_validPath_some op ⟨tc⟩ hop ht
  rw [← hp, h] at this
  exact Option.some.inj this

end regexp

/-! ## Shared lemmas on the handlers -/

theorem not_slash_of_isAlnum (c : Char) (h : IsAlnum c) : c ≠ '/' := by
  rintro rfl
  revert h
  decide

theorem pageFilename_of_isTitle (t : String) (ht : IsTitle t) :
    pageFilename t = "data/" ++ t ++ ".txt" :=
  pageFilename_of_no_slash t fun h => not_slash_of_isAlnum _ (ht.2 _ h) rfl

theorem pageFilename_injective (t u : String) (ht : IsTitle t) (hu : IsTitle u)
    (h : pageFilename t = pageFilename u) : t = u := by
  rw [pageFilename_of_isTitle t ht, pageFilename_of_isTitle u hu] at h
  have hd := congrArg String.data h
  simp only [String.data_append, List.append_assoc] at hd
  have h1 := List.append_cancel_left hd
  exact String.ext (List.append_cancel_right h1)

theorem makeHandler_of_route (fn : TitleHandler) (r : Request) (fs : FileSystem)
    (op t : String) (hop : op ∈ operations) (ht : IsTitle t) (hfp : t ≠ "FrontPage")
    (hp : r.Path = "/" ++ op ++ "/" ++ t) : makeHandler fn r fs = fn r t fs := by
  unfold makeHandler
  rw [hp, regexp.FindStringSubmatch_validPath_some op t hop ht]
  simp [hfp]

theorem makeHandler_of_no_match (fn : TitleHandler) (r : Request) (fs : FileSystem)
    (h : regexp.FindStringSubmatch validPath r.Path = none) :
    makeHandler fn r fs = ([.notFound], fs) := by
  unfold makeHandler
  rw [h]

theorem makeHandler_of_frontPage (fn : TitleHandler) (r : Request) (fs : FileSystem)
    (op : String) (hop : op ∈ operations) (hp : r.Path = "/" ++ op ++ "/" ++ "FrontPage") :
    makeHandler fn r fs = ([.notFound], fs) := by
  unfold makeHandler
  rw [hp, regexp.FindStringSubmatch_validPath_some op "FrontPage" hop (by decide)]
  simp

theorem loadPage_after_save (fs : FileSystem) (t : String) (b : Bytes)
    (h : (Page.save { Title := t, Body := b } fs).1 = none) :
    loadPage (Page.save { Title := t, Body := b } fs).2 t = .ok { Title := t, Body := b } := by
  unfold Page.save ioutil.WriteFile at h ⊢
  cases hf : fs.writeFault (filepath.Join [pageDir, t ++ ".txt"]) with
  | some fault => simp [hf] at h
  | none => simp [hf, loadPage, ioutil.ReadFile]

theorem read_after_writeFile_of_ne (fs : FileSystem) (p q : String) (b : Bytes) (h : q ≠ p) :
    (ioutil.WriteFile fs p b).2.read q = fs.read q := by
  unfold ioutil.WriteFile
  cases fs.writeFault p with
  | none => simp [h]
  | some fault =>
    obtain ⟨msg, left⟩ := fault
    cases left with
    | none => rfl
    | some entry => simp [h]

/-! ## Route validation -/

/-- C1: a path matches `validPath` exactly when it is `/` ++ op ++ `/` ++ t with
op one of edit, save, view and t a non-empty string of ASCII letters and
digits. `makeHandler fn` answers 404, whatever `fn` is (it is not called), when
the path has no such form with t other than `FrontPage`; otherwise it is one
call of `fn` with that title t. The three paths `/edit/FrontPage`,
`/save/FrontPage` and `/view/FrontPage` get 404. -/
theorem makeHandler_spec (r : Request) :
    (regexp.FindStringSubmatch validPath r.Path ≠ none ↔
      ∃ op ∈ operations, ∃ t, IsTitle t ∧ r.Path = "/" ++ op ++ "/" ++ t) ∧
    (((¬ ∃ op ∈ operations, ∃ t, IsTitle t ∧ t ≠ "FrontPage" ∧
          r.Path = "/" ++ op ++ "/" ++ t) ∧
        ∀ (fn : TitleHandler) (fs : FileSystem), makeHandler fn r fs = ([.notFound], fs)) ∨
      (∃ op ∈ operations, ∃ t, IsTitle t ∧ t ≠ "FrontPage" ∧
          r.Path = "/" ++ op ++ "/" ++ t ∧
        ∀ (fn : TitleHandler) (fs : FileSystem), makeHandler fn r fs = fn r t fs)) ∧
    (r.Path = "/edit/FrontPage" ∨ r.Path = "/save/FrontPage" ∨ r.Path = "/view/FrontPage" →
      ∀ (fn : TitleHandler) (fs : FileSystem), makeHandler fn r fs = ([.notFound], fs)) := by
  refine ⟨⟨?_, ?_⟩, ?_, ?_⟩
  · intro h
    cases hm : regexp.FindStringSubmatch validPath r.Path with
    | none => exact absurd hm h
    | some m =>
      obtain ⟨op, hop, t, ht, hp, -⟩ := regexp.FindStringSubmatch_validPath_inv _ _ hm
      exact ⟨op, hop, t, ht, hp⟩
  · rintro ⟨op, hop, t, ht, hp⟩
    rw [hp, regexp.FindStringSubmatch_validPath_some op t hop ht]
    simp
  · cases hm : regexp.FindStringSubmatch validPath r.Path with
    | none =>
      refine Or.inl ⟨?_, fun fn fs => makeHandler_of_no_match fn r fs hm⟩
      rintro ⟨op, hop, t, ht, -, hp⟩
      rw [hp, regexp.FindStringSubmatch_validPath_some op t hop ht] at hm
      cases hm
    | some m =>
      obtain ⟨op, hop, t, ht, hp, hmeq⟩ := regexp.FindStringSubmatch_validPath_inv _ _ hm
      by_cases hfp : t = "FrontPage"
      · refine Or.inl ⟨?_, fun fn fs => makeHandler_of_frontPage fn r fs op hop (hfp ▸ hp)⟩
        rintro ⟨op2, hop2, t2, ht2, hfp2, hp2⟩
        have h2 := regexp.FindStringSubmatch_validPath_some op2 t2 hop2 ht2
        rw [← hp2, hm, hmeq] at h2
        simp only [Option.some.injEq, List.cons.injEq, and_true, true_and] at h2
        exact hfp2 (h2.2 ▸ hfp)
      · exact Or.inr ⟨op, hop, t, ht, hfp, hp, fun fn fs =>
          makeHandler_of_route fn r fs op t hop ht hfp hp⟩
  · intro h fn fs
    rcases h with h | h | h
    · exact makeHandler_of_frontPage fn r fs "edit" (by decide) (by rw [h]; decide)
    · exact makeHandler_of_frontPage fn r fs "save" (by decide) (by rw [h]; decide)
    · exact makeHandler_of_frontPage fn r fs "view" (by decide) (by rw [h]; decide)

/-- Witness for C1: the path `/view/Home` matches `validPath`. -/
theorem makeHandler_spec_witness :
    regexp.FindStringSubmatch validPath (mkRequest "GET" "/view/Home" "").Path ≠ none :=
  (makeHandler_spec (mkRequest "GET" "/view/Home" "")).1.2
    ⟨"view", by decide, "Home", by decide, by decide⟩


/-! ## The page store -/

/-- C2: for a title t matching `[a-zA-Z0-9]+` other than `FrontPage`, after a
successful save of the page (t, b) on any file system, `loadPage t` succeeds
with exactly title t and body b, and viewing t (directly, or routed from the
path `/view/` ++ t) renders the `view` template with that page; a second
successful save under the same title replaces the body saved first. -/
theorem save_then_view (templates : Templates) (r : Request) (fs : FileSystem) (t : String)
    (b : Bytes) (ht : IsTitle t) (hfp : t ≠ "FrontPage") (hr : r.Path = "/view/" ++ t)
    (hsave : (Page.save { Title := t, Body := b } fs).1 = none) :
    loadPage (Page.save { Title := t, Body := b } fs).2 t = .ok { Title := t, Body := b } ∧
    viewHandler templates r t (Page.save { Title := t, Body := b } fs).2 =
      (renderTemplate templates "view" (.page { Title := t, Body := b }),
        (Page.save { Title := t, Body := b } fs).2) ∧
    makeHandler (viewHandler templates) r (Page.save { Title := t, Body := b } fs).2 =
      (renderTemplate templates "view" (.page { Title := t, Body := b }),
        (Page.save { Title := t, Body := b } fs).2) ∧
    (renderTemplate templates "view" (.page { Title := t, Body := b })).head? =
      some (.executeTemplate "view.gohtml" (.page { Title := t, Body := b })) ∧
    ∀ b2 : Bytes,
      (Page.save { Title := t, Body := b2 } (Page.save { Title := t, Body := b } fs).2).1 = none →
      loadPage (Page.save { Title := t, Body := b2 } (Page.save { Title := t, Body := b } fs).2).2 t
        = .ok { Title := t, Body := b2 } := by
  have hload := loadPage_after_save fs t b hsave
  have hview : viewHandler templates r t (Page.save { Title := t, Body := b } fs).2 =
      (renderTemplate templates "view" (.page { Title := t, Body := b }),
        (Page.save { Title := t, Body := b } fs).2) := by
    simp only [viewHandler, hload]
  have hpath : r.Path = "/" ++ "view" ++ "/" ++ t := by
    rw [hr]
    apply String.ext
    simp
  refine ⟨hload, hview, ?_, ?_, fun b2 h2 => loadPage_after_save _ t b2 h2⟩
  · rw [makeHandler_of_route _ r _ "view" t (by decide) ht hfp hpath, hview]
  · unfold renderTemplate
    cases templates.execute ("view" ++ ".gohtml") (.page { Title := t, Body := b }) <;> rfl

/-- Witness for C2: on a file system where `Home` holds `hello`, saving `world`
under `Home` makes `loadPage` return `world`. -/
theorem save_then_view_witness :
    loadPage
        (Page.save { Title := "Home", Body := bytesOf "world" }
          (Page.save { Title := "Home", Body := bytesOf "hello" } emptyFS).2).2 "Home"
      = .ok { Title := "Home", Body := bytesOf "world" } :=
  (save_then_view okTemplates (mkRequest "GET" "/view/Home" "")
    (Page.save { Title := "Home", Body := bytesOf "hello" } emptyFS).2 "Home" (bytesOf "world")
    (by decide) (by decide) (by decide) rfl).1

/-- C3: `save` writes and `loadPage` reads the file named
`filepath.Join(pageDir, title + ".txt")`, a function of the title alone; for a
title matching `[a-zA-Z0-9]+` this is `data/` ++ title ++ `.txt`, and two
distinct such titles have distinct file names. -/
theorem page_location (t1 t2 : String) (h1 : IsTitle t1) (h2 : IsTitle t2) (hne : t1 ≠ t2) :
    pageFilename t1 ≠ pageFilename t2 ∧
    pageFilename t1 = "data/" ++ t1 ++ ".txt" ∧
    pageFilename t1 = filepath.Join [pageDir, t1 ++ ".txt"] ∧
    (∀ (p : Page) (fs : FileSystem),
      p.save fs = ioutil.WriteFile fs (pageFilename p.Title) p.Body) ∧
    (∀ (fs : FileSystem) (t : String),
      loadPage fs t =
        match ioutil.ReadFile fs (pageFilename t) with
        | .error err => .error err
        | .ok body => .ok { Title := t, Body := body }) :=
  ⟨fun h => hne (pageFilename_injective t1 t2 h1 h2 h), pageFilename_of_isTitle t1 h1, rfl,
    fun _ _ => rfl, fun _ _ => rfl⟩

/-- Witness for C3: the pages `Home` and `home` are stored in different files. -/
theorem page_location_witness : pageFilename "Home" ≠ pageFilename "home" :=
  (page_location "Home" "home" (by decide) (by decide) (by decide)).1

/-- C10: for distinct titles t and u matching `[a-zA-Z0-9]+`, a save of page
(t, b), successful or not, leaves the result of `loadPage u` as it was; and
`viewHandler` and `editHandler` leave the file system as it was, for every
title and request. -/
theorem save_frame (fs : FileSystem) (t u : String) (b : Bytes) (ht : IsTitle t)
    (hu : IsTitle u) (hne : t ≠ u) :
    loadPage (Page.save { Title := t, Body := b } fs).2 u = loadPage fs u ∧
    (∀ (templates : Templates) (r : Request) (v : String) (fs0 : FileSystem),
      (viewHandler templates r v fs0).2 = fs0) ∧
    (∀ (templates : Templates) (r : Request) (v : String) (fs0 : FileSystem),
      (editHandler templates r v fs0).2 = fs0) := by
  refine ⟨?_, ?_, ?_⟩
  · have hpath : pageFilename u ≠ pageFilename t := fun h =>
      hne (pageFilename_injective u t hu ht h).symm
    have hread := read_after_writeFile_of_ne fs (pageFilename t) (pageFilename u) b hpath
    show (match ioutil.ReadFile (ioutil.WriteFile fs (pageFilename t) b).2 (pageFilename u) with
        | .error err => Except.error err
        | .ok body => Except.ok ({ Title := u, Body := body } : Page)) = loadPage fs u
    unfold ioutil.ReadFile
    rw [hread]
    rfl
  · intro templates r v fs0
    unfold viewHandler
    cases loadPage fs0 v <;> rfl
  · intro templates r v fs0
    rfl

/-- Witness for C10: saving `Home` on a file system that holds `Other` leaves
`loadPage "Other"` as it was. -/
theorem save_frame_witness :
    loadPage
        (Page.save { Title := "Home", Body := bytesOf "hello" }
          (Page.save { Title := "Other", Body := bytesOf "kept" } emptyFS).2).2 "Other"
      = loadPage (Page.save { Title := "Other", Body := bytesOf "kept" } emptyFS).2 "Other" :=
  (save_frame (Page.save { Title := "Other", Body := bytesOf "kept" } emptyFS).2 "Home" "Other"
    (bytesOf "hello") (by decide) (by decide) (by decide)).1

/-! ## Lemmas on `http.Redirect` -/

namespace urlpkg

end urlpkg

/-- C5: `editHandler` always renders the `edit` template, with the page
(t, empty body) when `loadPage t` fails and with the loaded page when it
succeeds; it never redirects and never answers not-found. -/
theorem editHandler_spec (templates : Templates) (r : Request) (t : String) (fs : FileSystem) :
    (∀ err, loadPage fs t = .error err →
      editHandler templates r t fs =
        (renderTemplate templates "edit" (.page { Title := t, Body := [] }), fs)) ∧
    (∀ p, loadPage fs t = .ok p →
      editHandler templates r t fs = (renderTemplate templates "edit" (.page p), fs) ∧
      p.Title = t ∧ fs.read (pageFilename t) = .ok p.Body) ∧
    (∃ p, (editHandler templates r t fs).1.head? = some (.executeTemplate "edit.gohtml" (.page p))) ∧
    (∀ url code, Action.redirect url code ∉ (editHandler templates r t fs).1) ∧
    Action.notFound ∉ (editHandler templates r t fs).1 := by
  have hrender : ∀ p : Page,
      (renderTemplate templates "edit" (.page p)).head?
          = some (.executeTemplate "edit.gohtml" (.page p)) ∧
        (∀ url code, Action.redirect url code ∉ renderTemplate templates "edit" (.page p)) ∧
        Action.notFound ∉ renderTemplate templates "edit" (.page p) := by
    intro p
    unfold renderTemplate
    cases templates.execute ("edit" ++ ".gohtml") (.page p) with
    | none => exact ⟨rfl, by simp, by simp⟩
    | some e => exact ⟨rfl, by simp, by simp⟩
  refine ⟨fun err h => ?_, fun p h => ⟨?_, ?_, ?_⟩, ?_, ?_, ?_⟩
  · simp only [editHandler, h]
  · simp only [editHandler, h]
  · unfold loadPage ioutil.ReadFile at h
    cases hread : fs.read (filepath.Join [pageDir, t ++ ".txt"]) with
    | error e => simp [hread] at h
    | ok body =>
      simp only [hread, Except.ok.injEq] at h
      rw [← h]
  · unfold loadPage ioutil.ReadFile at h
    cases hread : fs.read (filepath.Join [pageDir, t ++ ".txt"]) with
    | error e => simp [hread] at h
    | ok body =>
      simp only [hread, Except.ok.injEq] at h
      rw [← h]
      exact hread
  · exact ⟨_, (hrender _).1⟩
  · exact (hrender _).2.1
  · exact (hrender _).2.2

/-- Witness for C5: editing `Home` on the empty file system renders the form
with the title `Home` and an empty body. -/
theorem editHandler_spec_witness :
    editHandler okTemplates (mkRequest "GET" "/edit/Home" "") "Home" emptyFS
      = (renderTemplate okTemplates "edit" (.page { Title := "Home", Body := [] }), emptyFS) :=
  (editHandler_spec okTemplates (mkRequest "GET" "/edit/Home" "") "Home" emptyFS).1 _ rfl

/-- C7: on a request whose method is not POST, `saveHandler` does nothing: the
response is untouched and the file system is as it was. -/
theorem saveHandler_non_post (r : Request) (t : String) (fs : FileSystem)
    (hmethod : r.Method ≠ "POST") : saveHandler r t fs = ([], fs) := by
  have hm : r.Method ≠ MethodPost := hmethod
  simp only [saveHandler, hm, if_false]

/-- Witness for C7: a GET of `/save/Home`. -/
theorem saveHandler_non_post_witness :
    (mkRequest "GET" "/save/Home" "hello").Method ≠ "POST" ∧
      saveHandler (mkRequest "GET" "/save/Home" "hello") "Home" emptyFS = ([], emptyFS) :=
  ⟨by decide, saveHandler_non_post (mkRequest "GET" "/save/Home" "hello") "Home" emptyFS
    (by decide)⟩

/-- C8: `FilenameToPagename` removes one trailing `.txt` when there is one and
returns other names unchanged, so `FilenameToPagename (t ++ ".txt") = t`; on a
successful listing `files`, `viewFrontPageHandler` renders the
`view_frontpage` template with the names `FilenameToPagename f` for f in
`files`, in the same order and number; with `A.txt`, `B.txt` and `C.txt` in
the listing the rendered list has `A`, `B` and `C`. -/
theorem viewFrontPageHandler_spec (templates : Templates) (files : List String) :
    viewFrontPageHandler templates (.ok files) =
      renderTemplate templates "view_frontpage" (.names (files.map FilenameToPagename)) ∧
    (viewFrontPageHandler templates (.ok files)).head? =
      some (.executeTemplate "view_frontpage.gohtml" (.names (files.map FilenameToPagename))) ∧
    (files.map FilenameToPagename).length = files.length ∧
    (∀ t : String, FilenameToPagename (t ++ ".txt") = t) ∧
    (∀ f : String, strings.HasSuffix f ".txt" = false → FilenameToPagename f = f) ∧
    (∀ t : String, t ++ ".txt" ∈ files → t ∈ files.map FilenameToPagename) ∧
    viewFrontPageHandler templates (.ok ["A.txt", "B.txt", "C.txt"]) =
      renderTemplate templates "view_frontpage" (.names ["A", "B", "C"]) := by
  have htrim : ∀ t : String, FilenameToPagename (t ++ ".txt") = t := by
    intro t
    have hs : strings.HasSuffix (t ++ ".txt") ".txt" = true := by
      unfold strings.HasSuffix
      rw [List.isSuffixOf_iff_suffix]
      exact ⟨t.data, by simp⟩
    unfold FilenameToPagename strings.TrimSuffix
    rw [if_pos hs]
    apply String.ext
    simp
  refine ⟨rfl, ?_, by simp, htrim, ?_, ?_, rfl⟩
  · show (renderTemplate templates "view_frontpage"
      (.names (files.map FilenameToPagename))).head? = _
    unfold renderTemplate
    cases templates.execute ("view_frontpage" ++ ".gohtml")
      (.names (files.map FilenameToPagename)) <;> rfl
  · intro f hf
    unfold FilenameToPagename strings.TrimSuffix
    simp [hf]
  · intro t ht
    exact List.mem_map.2 ⟨_, ht, htrim t⟩

end GoWiki
